import Mathlib

/-!
# Verification of the hybrid retrieval and rank-fusion engine

A shallow embedding of the `rag-for-beginner` repository: the rank-fusion
engine (reciprocal-rank fusion of a lexical and a semantic result list),
the ensemble-retriever weight handling, the lexical index build step, the
Retrieval-Augmented Answerer's partial-failure policy, the interactive
question loop, and the document-conversion step of the embedding notebook.

Documents are identified by their stable corpus index (a natural number);
scores are exact rationals.  The fusion algorithm itself is delegated by
the source to a library whose formula the spec fixes as weighted
reciprocal-rank fusion, so the fusion definitions below are modelled from
the spec; the weight-defaulting logic, the interactive loop and the
document conversion are translated directly from the notebook sources.
-/

namespace Rag

/-- Modelled from the spec: the reciprocal-rank contribution of one input
result list.  The source delegates fusion to a library retriever whose exact
formula is not in the repository; the spec fixes it as reciprocal-rank
fusion.  A document at 1-indexed rank `r` (first occurrence) contributes
`1 / (r + c)` for a smoothing constant `c`; a document absent from the list
contributes `0`. -/
def rrfContribution (c : ℚ) (l : List Nat) (d : Nat) : ℚ :=
  if d ∈ l then 1 / ((l.indexOf d : ℚ) + 1 + c) else 0

/-- Modelled from the spec: the fused score of a document is
`wL * lexicalContribution + wS * semanticContribution`. -/
def fusedScore (c wL wS : ℚ) (A B : List Nat) (d : Nat) : ℚ :=
  wL * rrfContribution c A d + wS * rrfContribution c B d

/-- Modelled from the spec: the best (smallest) 0-indexed rank a document
received from either source, used as the first tie-break; a document absent
from a list gets a sentinel rank larger than any real one. -/
def bestSourceRank (A B : List Nat) (d : Nat) : Nat :=
  min (if d ∈ A then A.indexOf d else A.length + B.length)
      (if d ∈ B then B.indexOf d else A.length + B.length)

/-- Modelled from the spec: the strict ordering of fused results —
descending fused score, ties broken first by whichever source ranked the
document higher, then by corpus insertion order (document identity is the
stable corpus index). -/
def fusePrec (c wL wS : ℚ) (A B : List Nat) (d₁ d₂ : Nat) : Bool :=
  if fusedScore c wL wS A B d₁ ≠ fusedScore c wL wS A B d₂ then
    decide (fusedScore c wL wS A B d₂ < fusedScore c wL wS A B d₁)
  else if bestSourceRank A B d₁ ≠ bestSourceRank A B d₂ then
    decide (bestSourceRank A B d₁ < bestSourceRank A B d₂)
  else decide (d₁ < d₂)

/-- Insert a document into a list so that every element it strictly
precedes (under `f`) comes after it. -/
def insertRanked (f : Nat → Nat → Bool) (a : Nat) : List Nat → List Nat
  | [] => [a]
  | b :: bs => if f a b then a :: b :: bs else b :: insertRanked f a bs

/-- Insertion sort of candidate documents under the fusion ordering. -/
def sortRanked (f : Nat → Nat → Bool) : List Nat → List Nat
  | [] => []
  | a :: rest => insertRanked f a (sortRanked f rest)

/-- Deduplicate, keeping the first occurrence of each document;
`seen` accumulates the documents already emitted. -/
def dedupFirstAux (seen : List Nat) : List Nat → List Nat
  | [] => []
  | x :: xs =>
    if x ∈ seen then dedupFirstAux seen xs
    else x :: dedupFirstAux (x :: seen) xs

/-- The candidate documents of a fusion: every document of either input
list, first occurrence kept, duplicates removed. -/
def dedupKeepFirst (l : List Nat) : List Nat :=
  dedupFirstAux [] l

/-- Modelled from the spec: the full fused list (before the top-`k` cut) —
all distinct documents of the two input lists, sorted by the fusion
ordering, each paired with its fused score. -/
def fuseAll (c wL wS : ℚ) (A B : List Nat) : List (Nat × ℚ) :=
  (sortRanked (fusePrec c wL wS A B) (dedupKeepFirst (A ++ B))).map
    (fun d => (d, fusedScore c wL wS A B d))

/-- Modelled from the spec: `fuse(lexicalResults, semanticResults, weights, k)`
returns the top `k` fused results. -/
def fuse (c wL wS : ℚ) (A B : List Nat) (k : Nat) : List (Nat × ℚ) :=
  (fuseAll c wL wS A B).take k

/-- From `create_ensemble_retriever` in `step_03_RAG/RAG.ipynb`:
`if weights is None: weights = [1/len(retrievers)] * len(retrievers)`;
supplied weights are passed through unchanged, `n` is the number of
retrievers. -/
def create_ensemble_retriever_weights (n : Nat) (weights : Option (List ℚ)) :
    List ℚ :=
  match weights with
  | none => List.replicate n (1 / (n : ℚ))
  | some ws => ws

/-- Modelled from the spec: `RetrievalError` is raised only when both
retrieval sources fail. -/
inductive RetrievalError where
  | bothFailed
deriving DecidableEq, Repr

/-- The answerer's successful output: the fused passages handed to the
language model, plus the degradation flag recorded when one source failed. -/
structure AnswererOutput where
  passages : List (Nat × ℚ)
  degraded : Bool
deriving DecidableEq, Repr

/-- Modelled from the spec: the Retrieval-Augmented Answerer's
partial-failure policy.  Each retrieval source either produced a result
list (`some`) or failed (`none`, e.g. an `EmbeddingProviderError` from the
semantic source).  Both failing yields `RetrievalError`; one failing
degrades gracefully by fusing with only the surviving list — the failed
source supplies the empty list, so its weight contributes zero — and
records the degradation flag. -/
def answerQuery (c wL wS : ℚ) (k : Nat) (lex sem : Option (List Nat)) :
    Except RetrievalError AnswererOutput :=
  match lex, sem with
  | none, none => Except.error RetrievalError.bothFailed
  | some A, none => Except.ok ⟨fuse c wL wS A [] k, true⟩
  | none, some B => Except.ok ⟨fuse c wL wS [] B k, true⟩
  | some A, some B => Except.ok ⟨fuse c wL wS A B k, false⟩

/-- Modelled from the spec: build-time failure of the Lexical Index. -/
inductive BuildError where
  | emptyCorpus
deriving DecidableEq, Repr

/-- Modelled from the spec: the case-folded, punctuation-split tokenizer
shared by indexing and querying. -/
def tokenize (s : String) : List String :=
  (s.toLower.split fun ch => !ch.isAlphanum).filter fun t => t ≠ ""

/-- Corpus-wide document frequency of a term. -/
def docFrequency (corpus : List String) (t : String) : Nat :=
  (corpus.filter fun d => t ∈ tokenize d).length

/-- The Lexical Index: the immutable corpus together with its derived term
statistics (document frequency per distinct term). -/
structure LexicalIndex where
  corpus : List String
  termDocFreq : List (String × Nat)
deriving DecidableEq, Repr

/-- Modelled from the spec: `build(corpus)` constructs term statistics over
the full corpus and fails with `EmptyCorpusError` if the corpus has zero
documents; a build-time failure produces no index at all. -/
def buildLexicalIndex (corpus : List String) : Except BuildError LexicalIndex :=
  if corpus.isEmpty then Except.error BuildError.emptyCorpus
  else
    Except.ok
      ⟨corpus,
        ((corpus.map tokenize).flatten.dedup).map fun t => (t, docFrequency corpus t)⟩

/-- Python's `str.lower()`: case-fold every character of the string. -/
def pyLower (s : String) : String :=
  String.mk (s.data.map Char.toLower)

/-- From the interactive cell of `step_03_RAG/RAG.ipynb`:
`if user_query.lower() != 'q': response = rag_chain.invoke(...)`.
Returns the list of queries the chain was invoked with together with the
answer produced, if any. -/
def user_query_step (chain : String → String) (q : String) :
    List String × Option String :=
  if pyLower q ≠ "q" then ([q], some (chain q)) else ([], none)

/-- An input record of `convert_to_langchain_documents` in
`step_02_embedding/embedding.ipynb`: a mapping carrying `content` and
`metadata` fields. -/
structure RawRecord where
  content : String
  metadata : List (String × String)
deriving DecidableEq, Repr

/-- A LangChain `Document`: `page_content` plus `metadata`. -/
structure LCDocument where
  page_content : String
  metadata : List (String × String)
deriving DecidableEq, Repr

/-- From `convert_to_langchain_documents` in
`step_02_embedding/embedding.ipynb`: build one `Document(page_content=
doc["content"], metadata=doc["metadata"])` per input record, in order. -/
def convert_to_langchain_documents (documents : List RawRecord) :
    List LCDocument :=
  documents.map fun doc => ⟨doc.content, doc.metadata⟩

/-- Inserting under `f` permutes: the result is the element consed on. -/
theorem insertRanked_perm (f : Nat → Nat → Bool) (a : Nat) :
    ∀ l : List Nat, (insertRanked f a l).Perm (a :: l)
  | [] => List.Perm.refl _
  | b :: bs => by
    by_cases h : f a b = true
    · simp [insertRanked, h]
    · rw [insertRanked, if_neg h]
      exact ((insertRanked_perm f a bs).cons b).trans (List.Perm.swap a b bs)

/-- Sorting under `f` permutes the candidate list. -/
theorem sortRanked_perm (f : Nat → Nat → Bool) :
    ∀ l : List Nat, (sortRanked f l).Perm l
  | [] => List.Perm.refl _
  | a :: rest =>
    (insertRanked_perm f a (sortRanked f rest)).trans
      ((sortRanked_perm f rest).cons a)

/-- If `a` precedes everything in `l`, inserting it just conses it. -/
theorem insertRanked_eq_cons (f : Nat → Nat → Bool) (a : Nat) (l : List Nat)
    (h : ∀ b ∈ l, f a b = true) : insertRanked f a l = a :: l := by
  cases l with
  | nil => rfl
  | cons b bs => simp [insertRanked, h b (List.mem_cons_self b bs)]

/-- A list already pairwise-ordered under `f` is fixed by the sort. -/
theorem sortRanked_eq_self (f : Nat → Nat → Bool) :
    ∀ l : List Nat, l.Pairwise (fun a b => f a b = true) → sortRanked f l = l
  | [], _ => rfl
  | a :: rest, h => by
    rcases List.pairwise_cons.mp h with ⟨ha, hrest⟩
    rw [sortRanked, sortRanked_eq_self f rest hrest,
      insertRanked_eq_cons f a rest ha]

/-- Membership in the deduplication pass: kept iff present and not seen. -/
theorem mem_dedupFirstAux (a : Nat) :
    ∀ (seen l : List Nat), a ∈ dedupFirstAux seen l ↔ a ∈ l ∧ a ∉ seen
  | _, [] => by simp [dedupFirstAux]
  | seen, x :: xs => by
    by_cases hx : x ∈ seen
    · rw [dedupFirstAux, if_pos hx, mem_dedupFirstAux a seen xs]
      constructor
      · rintro ⟨h1, h2⟩; exact ⟨List.mem_cons_of_mem x h1, h2⟩
      · rintro ⟨h1, h2⟩
        rcases List.mem_cons.mp h1 with rfl | h1
        · exact absurd hx h2
        · exact ⟨h1, h2⟩
    · rw [dedupFirstAux, if_neg hx]
      constructor
      · intro h
        rcases List.mem_cons.mp h with rfl | h
        · exact ⟨List.mem_cons_self _ _, hx⟩
        · rcases (mem_dedupFirstAux a (x :: seen) xs).mp h with ⟨h1, h2⟩
          exact ⟨List.mem_cons_of_mem x h1,
            fun hs => h2 (List.mem_cons_of_mem x hs)⟩
      · rintro ⟨h1, h2⟩
        rcases List.mem_cons.mp h1 with rfl | h1
        · exact List.mem_cons_self _ _
        · by_cases hax : a = x
          · subst hax; exact List.mem_cons_self _ _
          · refine List.mem_cons_of_mem x
              ((mem_dedupFirstAux a (x :: seen) xs).mpr ⟨h1, ?_⟩)
            intro hs
            rcases List.mem_cons.mp hs with h | h
            · exact hax h
            · exact h2 h

/-- The deduplication pass emits no duplicates. -/
theorem nodup_dedupFirstAux :
    ∀ (seen l : List Nat), (dedupFirstAux seen l).Nodup
  | _, [] => List.nodup_nil
  | seen, x :: xs => by
    by_cases hx : x ∈ seen
    · rw [dedupFirstAux, if_pos hx]; exact nodup_dedupFirstAux seen xs
    · rw [dedupFirstAux, if_neg hx]
      refine List.Nodup.cons ?_ (nodup_dedupFirstAux (x :: seen) xs)
      intro hmem
      exact ((mem_dedupFirstAux x (x :: seen) xs).mp hmem).2
        (List.mem_cons_self _ _)

/-- On a duplicate-free list disjoint from `seen`, the pass is the
identity. -/
theorem dedupFirstAux_eq_self :
    ∀ (seen l : List Nat), l.Nodup → (∀ a ∈ l, a ∉ seen) →
      dedupFirstAux seen l = l
  | _, [], _, _ => rfl
  | seen, x :: xs, hnd, hdisj => by
    rw [dedupFirstAux, if_neg (hdisj x (List.mem_cons_self _ _))]
    congr 1
    refine dedupFirstAux_eq_self (x :: seen) xs (List.Nodup.of_cons hnd) ?_
    intro a ha hmem
    rcases List.mem_cons.mp hmem with rfl | hmem
    · exact (List.nodup_cons.mp hnd).1 ha
    · exact hdisj a (List.mem_cons_of_mem x ha) hmem

/-- `dedupKeepFirst` preserves membership. -/
theorem mem_dedupKeepFirst (a : Nat) (l : List Nat) :
    a ∈ dedupKeepFirst l ↔ a ∈ l := by
  rw [dedupKeepFirst, mem_dedupFirstAux]; simp

/-- `dedupKeepFirst` emits no duplicates. -/
theorem nodup_dedupKeepFirst (l : List Nat) : (dedupKeepFirst l).Nodup :=
  nodup_dedupFirstAux [] l

/-- A duplicate-free list is fixed by `dedupKeepFirst`. -/
theorem dedupKeepFirst_eq_self (l : List Nat) (h : l.Nodup) :
    dedupKeepFirst l = l :=
  dedupFirstAux_eq_self [] l h (fun a _ => List.not_mem_nil a)

/-- The documents of the full fused list are exactly the sorted distinct
candidates. -/
theorem map_fst_fuseAll (c wL wS : ℚ) (A B : List Nat) :
    (fuseAll c wL wS A B).map Prod.fst =
      sortRanked (fusePrec c wL wS A B) (dedupKeepFirst (A ++ B)) := by
  simp [fuseAll, List.map_map, Function.comp_def]

/-- Characterization of the full fused list: an entry is a document of one
of the two inputs, carrying exactly its fused score. -/
theorem mem_fuseAll_iff (c wL wS : ℚ) (A B : List Nat) (d : Nat) (s : ℚ) :
    (d, s) ∈ fuseAll c wL wS A B ↔
      (d ∈ A ∨ d ∈ B) ∧ s = fusedScore c wL wS A B d := by
  simp only [fuseAll, List.mem_map]
  constructor
  · rintro ⟨e, he, heq⟩
    rw [Prod.mk.injEq] at heq
    obtain ⟨rfl, rfl⟩ := heq
    have hmem : e ∈ dedupKeepFirst (A ++ B) :=
      ((sortRanked_perm _ _).mem_iff).mp he
    rw [mem_dedupKeepFirst, List.mem_append] at hmem
    exact ⟨hmem, rfl⟩
  · rintro ⟨hmem, rfl⟩
    exact ⟨d, ((sortRanked_perm _ _).mem_iff).mpr
      ((mem_dedupKeepFirst _ _).mpr (List.mem_append.mpr hmem)), rfl⟩

/-- The index of a first occurrence: if `d` sits at position `i` and not
earlier, then `indexOf` finds it exactly at `i`. -/
theorem indexOf_eq_of_first_occurrence (d : Nat) :
    ∀ (l : List Nat) (i : Nat) (hi : i < l.length),
      l.get ⟨i, hi⟩ = d → d ∉ l.take i → List.indexOf d l = i
  | x :: xs, 0, _, hget, _ => List.indexOf_cons_eq xs hget
  | x :: xs, i + 1, hi, hget, htake => by
    have hne : x ≠ d := by
      intro h
      exact htake (by simp [List.take_succ_cons, h, List.mem_cons])
    have htake' : d ∉ xs.take i := by
      intro h
      exact htake (by simp [List.take_succ_cons, List.mem_cons, h])
    rw [List.indexOf_cons_ne xs hne,
      indexOf_eq_of_first_occurrence d xs i (by simpa using hi) hget htake']

/-- `indexOf` inverts `getElem` on a duplicate-free list. -/
theorem indexOf_getElem_of_nodup (l : List Nat) (hl : l.Nodup) (i : Nat)
    (hi : i < l.length) : List.indexOf l[i] l = i := by
  have hmem : l[i] ∈ l := List.getElem_mem hi
  have hlt : List.indexOf l[i] l < l.length := List.indexOf_lt_length.mpr hmem
  exact (List.Nodup.getElem_inj_iff hl).mp (List.getElem_indexOf hlt)

/-- C3: Fusion is deterministic — for identical input lists, weights and
`k`, two calls of `fuse` yield identical output; the model has no
randomness, external calls or hidden state. -/
theorem fuse_deterministic (c c' wL wL' wS wS' : ℚ) (A A' B B' : List Nat)
    (k k' : Nat) (hc : c = c') (hwL : wL = wL') (hwS : wS = wS')
    (hA : A = A') (hB : B = B') (hk : k = k') :
    fuse c wL wS A B k = fuse c' wL' wS' A' B' k' := by
  subst hc hwL hwS hA hB hk; rfl

/-- Witness for C3 at the notebook's weights (0.7, 0.3). -/
theorem fuse_deterministic_witness :
    fuse 60 (7/10) (3/10) [0, 1] [0, 2] 2 =
      fuse 60 (7/10) (3/10) [0, 1] [0, 2] 2 :=
  fuse_deterministic 60 60 (7/10) (7/10) (3/10) (3/10) [0, 1] [0, 1]
    [0, 2] [0, 2] 2 2 rfl rfl rfl rfl rfl rfl

/-- C6: with two retrievers and no supplied weights,
`create_ensemble_retriever` defaults to equal weighting
`[1/2, 1/2]` = (0.5, 0.5); supplied weights are passed through unchanged
(no normalization, so they need not sum to 1). -/
theorem ensemble_retriever_default_weights :
    create_ensemble_retriever_weights 2 none = [1/2, 1/2] ∧
    ∀ ws : List ℚ, create_ensemble_retriever_weights 2 (some ws) = ws := by
  refine ⟨?_, fun ws => rfl⟩
  show List.replicate 2 (1 / (2 : ℚ)) = [1/2, 1/2]
  norm_num [List.replicate]

/-- C7: if the semantic source fails (`EmbeddingProviderError`, modelled as
`none`) while the lexical source succeeds, the Retrieval-Augmented Answerer
still returns an answer (`Except.ok`, so no exception propagates) built
from lexical-only fused results with the degradation flag recorded; an
error is surfaced iff both retrieval sources fail. -/
theorem answerer_partial_failure (c wL wS : ℚ) (k : Nat) (A : List Nat) :
    answerQuery c wL wS k (some A) none =
      Except.ok ⟨fuse c wL wS A [] k, true⟩ ∧
    ∀ lex sem : Option (List Nat),
      (∃ e, answerQuery c wL wS k lex sem = Except.error e) ↔
        (lex = none ∧ sem = none) := by
  refine ⟨rfl, fun lex sem => ?_⟩
  cases lex with
  | none =>
    cases sem with
    | none =>
      simp only [answerQuery, and_self, iff_true]
      exact ⟨RetrievalError.bothFailed, trivial⟩
    | some B => simp [answerQuery]
  | some A => cases sem <;> simp [answerQuery]

/-- C8: building the Lexical Index on a corpus with zero documents fails
with `EmptyCorpusError`, and the failed build produces no queryable index:
no `LexicalIndex` value is ever returned for the empty corpus. -/
theorem build_empty_corpus_fails :
    buildLexicalIndex [] = Except.error BuildError.emptyCorpus ∧
    ∀ idx : LexicalIndex, buildLexicalIndex [] ≠ Except.ok idx := by
  refine ⟨rfl, fun idx h => ?_⟩
  simp [buildLexicalIndex] at h

/-- C9: in the interactive loop, an input whose lowercasing equals `"q"`
(so `"q"` or `"Q"`) never invokes the RAG chain and produces no answer;
any other input invokes the chain exactly once, with that very string as
the query. -/
theorem user_query_loop_behavior (chain : String → String) (q : String) :
    (pyLower q = "q" → user_query_step chain q = ([], none)) ∧
    (pyLower q ≠ "q" → user_query_step chain q = ([q], some (chain q))) := by
  constructor
  · intro h; simp [user_query_step, h]
  · intro h; simp [user_query_step, h]

/-- Witness for C9: the quit inputs `"q"`/`"Q"` skip the chain, a real
question reaches it exactly once. -/
theorem user_query_loop_behavior_witness :
    user_query_step (fun s => s ++ "!") "Q" = ([], none) ∧
    user_query_step (fun s => s ++ "!") "q" = ([], none) ∧
    user_query_step (fun s => s ++ "!") "hello" =
      (["hello"], some ("hello!")) :=
  ⟨(user_query_loop_behavior (fun s => s ++ "!") ("Q")).1 (by decide),
   (user_query_loop_behavior (fun s => s ++ "!") ("q")).1 (by decide),
   (user_query_loop_behavior (fun s => s ++ "!") ("hello")).2 (by decide)⟩

/-- C10: `convert_to_langchain_documents` is a structure-preserving map —
the output has the same length as the input, and position by position the
output document's `page_content` is the input record's `content` and its
`metadata` is the input record's `metadata`. -/
theorem convert_to_langchain_documents_structure (documents : List RawRecord) :
    (convert_to_langchain_documents documents).length = documents.length ∧
    ∀ i : Nat,
      ((convert_to_langchain_documents documents)[i]?).map
          LCDocument.page_content =
        (documents[i]?).map RawRecord.content ∧
      ((convert_to_langchain_documents documents)[i]?).map
          LCDocument.metadata =
        (documents[i]?).map RawRecord.metadata := by
  refine ⟨by simp [convert_to_langchain_documents], fun i => ?_⟩
  refine ⟨?_, ?_⟩
  · simp only [convert_to_langchain_documents, List.getElem?_map,
      Option.map_map]
    cases documents[i]? <;> rfl
  · simp only [convert_to_langchain_documents, List.getElem?_map,
      Option.map_map]
    cases documents[i]? <;> rfl

/-- C1: every entry of the fused output is scored by reciprocal rank — its
fused score is `wLex` times its lexical contribution plus `wSem` times its
semantic contribution, where a document at 1-indexed rank `i + 1` (first
occurrence at 0-indexed position `i`) in an input list contributes
`1 / ((i + 1) + c)`, not a raw score, and a document absent from a list
contributes `0` from that list. -/
theorem fuse_reciprocal_rank_scoring (c wL wS : ℚ) (A B : List Nat)
    (k d : Nat) (s : ℚ) (_hc : 0 < c) (_hwL : 0 ≤ wL) (_hwS : 0 ≤ wS)
    (hmem : (d, s) ∈ fuse c wL wS A B k) :
    s = wL * rrfContribution c A d + wS * rrfContribution c B d ∧
    (∀ (l : List Nat) (e i : Nat) (hi : i < l.length),
        l.get ⟨i, hi⟩ = e → e ∉ l.take i →
        rrfContribution c l e = 1 / (((i : ℚ) + 1) + c)) ∧
    (∀ (l : List Nat) (e : Nat), e ∉ l → rrfContribution c l e = 0) := by
  refine ⟨?_, ?_, ?_⟩
  · have hall : (d, s) ∈ fuseAll c wL wS A B := List.mem_of_mem_take hmem
    have := ((mem_fuseAll_iff c wL wS A B d s).mp hall).2
    rw [fusedScore] at this
    exact this
  · intro l e i hi hget htake
    have he : e ∈ l := hget ▸ List.get_mem l i hi
    rw [rrfContribution, if_pos he,
      indexOf_eq_of_first_occurrence e l i hi hget htake]
  · intro l e he
    rw [rrfContribution, if_neg he]

/-- Witness for C1: in `fuse 60 1 1 [3, 5] [5] 5` the document `3` sits at
lexical rank 1 and is absent from the semantic list, so its fused score is
`1/61`. -/
theorem fuse_reciprocal_rank_scoring_witness :
    (1 : ℚ)/61 = 1 * rrfContribution 60 [3, 5] 3 + 1 * rrfContribution 60 [5] 3 ∧
    (∀ (l : List Nat) (e i : Nat) (hi : i < l.length),
        l.get ⟨i, hi⟩ = e → e ∉ l.take i →
        rrfContribution 60 l e = 1 / (((i : ℚ) + 1) + 60)) ∧
    (∀ (l : List Nat) (e : Nat), e ∉ l → rrfContribution 60 l e = 0) :=
  fuse_reciprocal_rank_scoring 60 1 1 [3, 5] [5] 5 3 (1/61)
    (by norm_num) (by norm_num) (by norm_num)
    (by
      rw [fuse, List.take_of_length_le, mem_fuseAll_iff]
      · refine ⟨Or.inl (by decide), ?_⟩
        rw [fusedScore, rrfContribution, if_pos (by decide),
          rrfContribution, if_neg (by decide),
          show List.indexOf 3 [3, 5] = 0 from by decide]
        norm_num
      · rw [fuseAll, List.length_map, (sortRanked_perm _ _).length_eq]
        decide)

/-- C2: a document appearing in both input lists yields exactly one entry
of the full fused list, whose score sums the two per-source
reciprocal-rank contributions (each weighted, not averaged); and the fused
output never holds two entries with the same document identity. -/
theorem fuse_deduplicates (c wL wS : ℚ) (A B : List Nat) (k d : Nat)
    (hA : d ∈ A) (hB : d ∈ B) :
    ((fuseAll c wL wS A B).map Prod.fst).count d = 1 ∧
    (d, wL * (1 / ((List.indexOf d A : ℚ) + 1 + c)) +
          wS * (1 / ((List.indexOf d B : ℚ) + 1 + c))) ∈
        fuseAll c wL wS A B ∧
    ((fuse c wL wS A B k).map Prod.fst).Nodup := by
  refine ⟨?_, ?_, ?_⟩
  · rw [map_fst_fuseAll,
      (sortRanked_perm (fusePrec c wL wS A B) (dedupKeepFirst (A ++ B))).count_eq d]
    exact List.count_eq_one_of_mem (nodup_dedupKeepFirst _)
      ((mem_dedupKeepFirst _ _).mpr (List.mem_append.mpr (Or.inl hA)))
  · rw [mem_fuseAll_iff]
    refine ⟨Or.inl hA, ?_⟩
    rw [fusedScore, rrfContribution, if_pos hA, rrfContribution, if_pos hB]
  · rw [fuse, List.map_take]
    have hs : ((fuseAll c wL wS A B).map Prod.fst).Nodup := by
      rw [map_fst_fuseAll]
      exact (sortRanked_perm _ _).symm.nodup (nodup_dedupKeepFirst _)
    exact (List.take_sublist _ _).nodup hs

/-- Witness for C2 at `A = [3, 5]`, `B = [5]`, `d = 5`. -/
theorem fuse_deduplicates_witness :
    ((fuseAll 60 1 1 [3, 5] [5]).map Prod.fst).count 5 = 1 ∧
    (5, 1 * (1 / ((List.indexOf 5 [3, 5] : ℚ) + 1 + 60)) +
          1 * (1 / ((List.indexOf 5 [5] : ℚ) + 1 + 60))) ∈
        fuseAll 60 1 1 [3, 5] [5] ∧
    ((fuse 60 1 1 [3, 5] [5] 2).map Prod.fst).Nodup :=
  fuse_deduplicates 60 1 1 [3, 5] [5] 2 5 (by decide) (by decide)

/-- C4: the fused result list has length at most `k` and at most the
number of distinct documents across both inputs — `dedupKeepFirst (A ++ B)`
being precisely the duplicate-free list of documents of either input. -/
theorem fuse_k_bounded (c wL wS : ℚ) (A B : List Nat) (k : Nat) :
    (fuse c wL wS A B k).length ≤ k ∧
    (fuse c wL wS A B k).length ≤ (dedupKeepFirst (A ++ B)).length ∧
    (dedupKeepFirst (A ++ B)).Nodup ∧
    (∀ d : Nat, d ∈ dedupKeepFirst (A ++ B) ↔ (d ∈ A ∨ d ∈ B)) := by
  refine ⟨List.length_take_le _ _, ?_, nodup_dedupKeepFirst _, ?_⟩
  · have h1 : (fuse c wL wS A B k).length ≤ (fuseAll c wL wS A B).length :=
      (List.take_sublist _ _).length_le
    have h2 : (fuseAll c wL wS A B).length =
        (dedupKeepFirst (A ++ B)).length := by
      rw [fuseAll, List.length_map]
      exact (sortRanked_perm _ _).length_eq
    exact h2 ▸ h1
  · intro d
    rw [mem_dedupKeepFirst, List.mem_append]

/-- Counterexample to C5 as stated for arbitrary lists: the fused output
is deduplicated by document identity, so fusing the list `[3, 3]` (the
same document at ranks 1 and 2) with an empty list under weights `(1, 0)`
yields a single entry for document `3`, not the top-2 prefix `[3, 3]`. -/
theorem fuse_empty_input_laws_counterexample :
    (fuse 60 1 0 [3, 3] [] 2).map Prod.fst ≠ [3, 3].take 2 := by
  rw [fuse, List.map_take, map_fst_fuseAll,
    show dedupKeepFirst ([3, 3] ++ []) = [3] from by decide,
    show sortRanked (fusePrec 60 1 0 [3, 3] []) [3] = [3] from rfl]
  decide

/-- C5 (amended): fusing two empty lists yields the empty list, and fusing
a duplicate-free result list `A` (a ranked result list never carries the
same document twice) with an empty list under weights `(1, 0)` yields
exactly the first `k` documents of `A` in their original order. -/
theorem fuse_empty_input_laws (c wL wS : ℚ) (A : List Nat) (k : Nat)
    (hc : 0 < c) (hA : A.Nodup) :
    fuse c wL wS [] [] k = [] ∧
    (fuse c 1 0 A [] k).map Prod.fst = A.take k := by
  constructor
  · simp [fuse, fuseAll, dedupKeepFirst, dedupFirstAux, sortRanked]
  · have hcand : dedupKeepFirst (A ++ []) = A := by
      rw [List.append_nil]; exact dedupKeepFirst_eq_self A hA
    have hscore : ∀ (m : Nat) (hm : m < A.length),
        fusedScore c 1 0 A [] A[m] = 1 / ((m : ℚ) + 1 + c) := by
      intro m hm
      rw [fusedScore, rrfContribution, if_pos (List.getElem_mem hm),
        indexOf_getElem_of_nodup A hA m hm, rrfContribution]
      simp
    have hpair : A.Pairwise (fun a b => fusePrec c 1 0 A [] a b = true) := by
      rw [List.pairwise_iff_getElem]
      intro i j hi hj hij
      have hpos : (0 : ℚ) < (i : ℚ) + 1 + c := by positivity
      have hmono : (i : ℚ) + 1 + c < (j : ℚ) + 1 + c := by
        have : (i : ℚ) < (j : ℚ) := by exact_mod_cast hij
        linarith
      have hlt : fusedScore c 1 0 A [] A[j] < fusedScore c 1 0 A [] A[i] := by
        rw [hscore i hi, hscore j hj]
        exact one_div_lt_one_div_of_lt hpos hmono
      have hne : fusedScore c 1 0 A [] A[i] ≠ fusedScore c 1 0 A [] A[j] :=
        ne_of_gt hlt
      rw [fusePrec, if_pos hne, decide_eq_true_eq]
      exact hlt
    have hsorted :
        sortRanked (fusePrec c 1 0 A []) (dedupKeepFirst (A ++ [])) = A := by
      rw [hcand]
      exact sortRanked_eq_self _ A hpair
    rw [fuse, List.map_take, map_fst_fuseAll, hsorted]

/-- Witness for C5 at `A = [4, 2, 7]`, `k = 2`, `c = 60`. -/
theorem fuse_empty_input_laws_witness :
    fuse 60 (1/2) (1/2) [] [] 2 = [] ∧
    (fuse 60 1 0 [4, 2, 7] [] 2).map Prod.fst = [4, 2, 7].take 2 :=
  fuse_empty_input_laws 60 (1/2) (1/2) [4, 2, 7] 2 (by norm_num) (by decide)

end Rag
